import Mathlib

/-!
Verification of the LLM-response normalization and retry pipeline of the
mcp-servers repository.  The embedded code is the Study Buddy variant:

* `Study Buddy-MCP/mcp_server/gemini_client.py` — `GeminiClient.generate_content`
  (retry loop, lines 60–137), `_try_partial_json` (lines 139–158),
  `_fix_json_issues` (lines 160–183), `_clean_json_response` (lines 185–202);
* `Study Buddy-MCP/gradio_app/app_dark.py` — `format_explanation` (lines 68–78);
* `Study Buddy-MCP/mcp_server/server.py` — `handle_explain_topic` save guard
  (lines 269–282).

Python strings are modelled as `String`/`List Char`; `json.loads` is modelled
by an executable strict JSON parser (`json_loads`) following CPython's
`json.decoder` grammar; `re.sub` calls are modelled by explicit left-to-right
scans with the exact greedy/backtracking behaviour of the patterns used.
-/

namespace StudyBuddy

/-- The backtick character, written numerically. -/
def btick : Char := Char.ofNat 96

/-- The opening curly brace character, written numerically. -/
def lbrace : Char := Char.ofNat 123

/-- The closing curly brace character, written numerically. -/
def rbrace : Char := Char.ofNat 125

/-- ASCII whitespace as recognised by Python's `str.strip()` and by the `\s`
class of the `re` module (restricted to ASCII): space, tab, newline, carriage
return, vertical tab, form feed. -/
def isPyWs (c : Char) : Bool :=
  c = ' ' || c = '\t' || c = '\n' || c = '\r' || c = Char.ofNat 11 || c = Char.ofNat 12

/-- Python `str.strip()` on the underlying character list. -/
def pyStripData (cs : List Char) : List Char :=
  ((cs.dropWhile isPyWs).reverse.dropWhile isPyWs).reverse

/-- Python `str.strip()`. -/
def pyStrip (s : String) : String := String.mk (pyStripData s.data)

/-- Greedy match of the regex fragment `\s*\n` at the head of `cs`: the number
of characters consumed, namely the maximal whitespace run truncated just after
its last newline; `none` when the run contains no newline (no match). -/
def wsNlLen (cs : List Char) : Option Nat :=
  let run := cs.takeWhile isPyWs
  let afterLast := run.reverse.takeWhile (fun c => !(c = '\n'))
  if afterLast.length = run.length then none
  else some (run.length - afterLast.length)

/-- Attempted match of `` ```(?:json)?\s*\n `` at a line start: `some rest`
when the regex matches, returning the input after the consumed segment.  The
alternation first tries to consume the optional `json` tag, then falls back
to matching `\s*\n` directly after the three backticks. -/
def fenceOpenTry (cs : List Char) : Option (List Char) :=
  if cs.take 3 = [btick, btick, btick] then
    let afterTicks := cs.drop 3
    if afterTicks.take 4 = ['j', 's', 'o', 'n'] then
      match wsNlLen (afterTicks.drop 4) with
      | some k => some ((afterTicks.drop 4).drop k)
      | none =>
        match wsNlLen afterTicks with
        | some k => some (afterTicks.drop k)
        | none => none
    else
      match wsNlLen afterTicks with
      | some k => some (afterTicks.drop k)
      | none => none
  else none

/-- One pass of `re.sub(r'^```(?:json)?\s*\n', '', text, flags=re.MULTILINE)`
(gemini_client.py line 196), as a left-to-right scan.  `atStart` records
whether the current position is a line start (where `^` matches under
MULTILINE). -/
def fenceOpenGo : Nat → Bool → List Char → List Char
  | 0, _, cs => cs
  | _ + 1, _, [] => []
  | fuel + 1, atStart, c :: cs =>
    if atStart then
      match fenceOpenTry (c :: cs) with
      | some rest => fenceOpenGo fuel true rest
      | none => c :: fenceOpenGo fuel (c = '\n') cs
    else
      c :: fenceOpenGo fuel (c = '\n') cs

/-- Attempted match of `` ```\s*$ `` just after a newline (MULTILINE `$`
matches at the end of the text or just before any newline): the greedy `\s*`
consumes the whole trailing whitespace run when the text ends there, and
otherwise stops just before the last newline inside the run. -/
def fenceCloseTry (cs : List Char) : Option (List Char) :=
  if cs.take 3 = [btick, btick, btick] then
    let rest := cs.drop 3
    let run := rest.takeWhile isPyWs
    if rest.drop run.length = [] then some (rest.drop run.length)
    else
      match wsNlLen rest with
      | some k => some (rest.drop (k - 1))
      | none => none
  else none

/-- One pass of `re.sub(r'\n```\s*$', '', text, flags=re.MULTILINE)`
(gemini_client.py line 197), as a left-to-right scan over newline
positions. -/
def fenceCloseGo : Nat → List Char → List Char
  | 0, cs => cs
  | _ + 1, [] => []
  | fuel + 1, c :: cs =>
    if c = '\n' then
      match fenceCloseTry cs with
      | some rest => fenceCloseGo fuel rest
      | none => c :: fenceCloseGo fuel cs
    else
      c :: fenceCloseGo fuel cs

/-- One pass of `re.sub(r',(\s*[}\]])', r'\1', text)` (gemini_client.py
line 181): a comma followed by optional whitespace and a closing brace or
bracket is deleted (the whitespace and closer are kept by the backreference). -/
def commaSubGo : Nat → List Char → List Char
  | 0, cs => cs
  | _ + 1, [] => []
  | fuel + 1, c :: cs =>
    if c = ',' then
      let run := cs.takeWhile isPyWs
      match cs.drop run.length with
      | d :: rest =>
        if d = rbrace || d = ']' then
          run ++ d :: commaSubGo fuel rest
        else
          c :: commaSubGo fuel cs
      | [] => c :: commaSubGo fuel cs
    else
      c :: commaSubGo fuel cs

/-- State held by `GeminiClient.__init__` (gemini_client.py lines 16–58).  The
API key is the only plain data field; the `genai` model handle is an external
network resource and is not consulted by any of the text-processing methods
modelled here. -/
structure GeminiClient where
  api_key : String

/-- `GeminiClient._clean_json_response` (gemini_client.py lines 185–202):
remove markdown code-fence lines, then strip leading/trailing whitespace. -/
def GeminiClient.clean_json_response (_self : GeminiClient) (text : String) : String :=
  let t1 := fenceOpenGo text.data.length true text.data
  let t2 := fenceCloseGo t1.length t1
  String.mk (pyStripData t2)

/-- Character-wise effect of the `replace` chain in `_fix_json_issues`
(gemini_client.py lines 171–172).  The source file contains only ASCII bytes:
both arguments of each `replace` call are the same plain quote character, so
each call replaces a character by itself and the chain is the identity. -/
def fixQuoteChar (c : Char) : Char :=
  let c := if c = '"' then '"' else c
  let c := if c = '\'' then '\'' else c
  c

/-- `GeminiClient._fix_json_issues` (gemini_client.py lines 160–183): the
quote `replace` chain followed by the trailing-comma removal `re.sub`. -/
def GeminiClient.fix_json_issues (_self : GeminiClient) (text : String) : String :=
  let text := String.mk (text.data.map fixQuoteChar)
  String.mk (commaSubGo text.data.length text.data)

/-- Python `text.count(c)` for a single character. -/
def countChar (c : Char) (s : String) : Nat := s.data.count c

/-- Python `s * n` for strings. -/
def pyStrMul (s : String) (n : Nat) : String :=
  String.mk (List.flatten (List.replicate n s.data))

/-- The closure-repair text mutation of `_try_partial_json` (gemini_client.py
lines 152–153): when the text has more opening than closing braces, append
that many copies of the two-character sequence quote-brace. -/
def repairText (text : String) : String :=
  if countChar lbrace text > countChar rbrace text then
    text ++ pyStrMul "\"\x7d" (countChar lbrace text - countChar rbrace text)
  else text

/-- JSON whitespace as skipped by CPython's `json.decoder` (`WHITESPACE`
regex `[ \t\n\r]*`). -/
def isJsonWs (c : Char) : Bool :=
  c = ' ' || c = '\t' || c = '\n' || c = '\r'

/-- Drop leading JSON whitespace. -/
def skipWs (cs : List Char) : List Char := cs.dropWhile isJsonWs

/-- Generic JSON-like tree value, the result type of `json.loads`.  Number
literals are kept as their source text (their numeric value is never consulted
by the code under verification, only their Python truthiness). -/
inductive Json where
  | null
  | bool (b : Bool)
  | num (lit : String)
  | str (s : String)
  | arr (items : List Json)
  | obj (members : List (String × Json))

/-- JSON string escape characters (CPython `json.decoder.BACKSLASH`). -/
def escChar (e : Char) : Option Char :=
  if e = '"' then some '"'
  else if e = '\\' then some '\\'
  else if e = '/' then some '/'
  else if e = 'b' then some (Char.ofNat 8)
  else if e = 'f' then some (Char.ofNat 12)
  else if e = 'n' then some '\n'
  else if e = 'r' then some '\r'
  else if e = 't' then some '\t'
  else none

/-- Hexadecimal digit value. -/
def hexVal (c : Char) : Option Nat :=
  if '0' ≤ c && c ≤ '9' then some (c.toNat - 48)
  else if 'a' ≤ c && c ≤ 'f' then some (c.toNat - 87)
  else if 'A' ≤ c && c ≤ 'F' then some (c.toNat - 55)
  else none

/-- Strict JSON string scanner (CPython `py_scanstring`), applied after the
opening quote.  Returns the decoded characters and the input remaining after
the closing quote.  Control characters below 0x20 are rejected (strict mode);
escapes are decoded per the JSON grammar. -/
def parseStringBody : Nat → List Char → Option (List Char × List Char)
  | 0, _ => none
  | _ + 1, [] => none
  | fuel + 1, c :: cs =>
    if c = '"' then some ([], cs)
    else if c = '\\' then
      match cs with
      | [] => none
      | e :: cs1 =>
        if e = 'u' then
          match cs1.take 4 with
          | [a, b, c2, d] =>
            match hexVal a, hexVal b, hexVal c2, hexVal d with
            | some ha, some hb, some hc, some hd =>
              match parseStringBody fuel (cs1.drop 4) with
              | some (content, rest) =>
                some (Char.ofNat (((ha * 16 + hb) * 16 + hc) * 16 + hd) :: content, rest)
              | none => none
            | _, _, _, _ => none
          | _ => none
        else
          match escChar e with
          | some ec =>
            match parseStringBody fuel cs1 with
            | some (content, rest) => some (ec :: content, rest)
            | none => none
          | none => none
    else if c.toNat < 32 then none
    else
      match parseStringBody fuel cs with
      | some (content, rest) => some (c :: content, rest)
      | none => none

/-- Integer part of a JSON number: `-?(0|[1-9]\d*)` without the sign. -/
def parseIntDigits : List Char → Option (List Char × List Char)
  | [] => none
  | c :: cs =>
    if c = '0' then some (['0'], cs)
    else if c.isDigit then some (c :: cs.takeWhile Char.isDigit, cs.dropWhile Char.isDigit)
    else none

/-- Optional fraction part of a JSON number: `(\.\d+)?`. -/
def parseFrac : List Char → List Char × List Char
  | [] => ([], [])
  | c :: rest =>
    if c = '.' then
      match rest.takeWhile Char.isDigit with
      | [] => ([], c :: rest)
      | d :: ds => (c :: d :: ds, rest.dropWhile Char.isDigit)
    else ([], c :: rest)

/-- Optional exponent part of a JSON number: `([eE][-+]?\d+)?`. -/
def parseExp : List Char → List Char × List Char
  | [] => ([], [])
  | e :: rest =>
    if e = 'e' || e = 'E' then
      match rest with
      | [] => ([], [e])
      | s :: rest2 =>
        if s = '+' || s = '-' then
          match rest2.takeWhile Char.isDigit with
          | [] => ([], e :: s :: rest2)
          | d :: ds => (e :: s :: d :: ds, rest2.dropWhile Char.isDigit)
        else
          match (s :: rest2).takeWhile Char.isDigit with
          | [] => ([], e :: s :: rest2)
          | d :: ds => (e :: d :: ds, (s :: rest2).dropWhile Char.isDigit)
    else ([], e :: rest)

/-- Unsigned JSON number literal, following CPython's `NUMBER_RE`. -/
def parseUnsignedNum (cs : List Char) : Option (List Char × List Char) :=
  match parseIntDigits cs with
  | some (ip, rest1) =>
    let fr := parseFrac rest1
    let ex := parseExp fr.2
    some (ip ++ fr.1 ++ ex.1, ex.2)
  | none => none

/-- JSON number (including the CPython extensions `NaN`, `Infinity`,
`-Infinity` accepted by default by `json.loads`). -/
def parseNumber (cs : List Char) : Option (Json × List Char) :=
  match cs with
  | [] => none
  | c :: rest =>
    if c = '-' then
      if rest.take 8 = ['I', 'n', 'f', 'i', 'n', 'i', 't', 'y'] then
        some (.num "-Infinity", rest.drop 8)
      else
        match parseUnsignedNum rest with
        | some (lit, r) => some (.num (String.mk (c :: lit)), r)
        | none => none
    else
      match parseUnsignedNum (c :: rest) with
      | some (lit, r) => some (.num (String.mk lit), r)
      | none => none

mutual

/-- Strict JSON value scanner (CPython `py_make_scanner`): dispatch on the
first character, which the caller guarantees is not whitespace. -/
def parseValue : Nat → List Char → Option (Json × List Char)
  | 0, _ => none
  | fuel + 1, cs =>
    match cs with
    | [] => none
    | c :: rest =>
      if c = '"' then
        match parseStringBody (rest.length + 1) rest with
        | some (content, r) => some (.str (String.mk content), r)
        | none => none
      else if c = lbrace then
        match skipWs rest with
        | [] => none
        | c1 :: r1 =>
          if c1 = rbrace then some (.obj [], r1)
          else parseObjRest fuel (c1 :: r1) []
      else if c = '[' then
        match skipWs rest with
        | [] => none
        | c1 :: r1 =>
          if c1 = ']' then some (.arr [], r1)
          else parseArrRest fuel (c1 :: r1) []
      else if c = 't' then
        if rest.take 3 = ['r', 'u', 'e'] then some (.bool true, rest.drop 3) else none
      else if c = 'f' then
        if rest.take 4 = ['a', 'l', 's', 'e'] then some (.bool false, rest.drop 4) else none
      else if c = 'n' then
        if rest.take 3 = ['u', 'l', 'l'] then some (.null, rest.drop 3) else none
      else if c = 'N' then
        if rest.take 2 = ['a', 'N'] then some (.num "NaN", rest.drop 2) else none
      else if c = 'I' then
        if rest.take 7 = ['n', 'f', 'i', 'n', 'i', 't', 'y'] then
          some (.num "Infinity", rest.drop 7)
        else none
      else parseNumber (c :: rest)

/-- Members of a nonempty JSON object, positioned at the first character of a
key (a quote); accumulates decoded members in order. -/
def parseObjRest : Nat → List Char → List (String × Json) → Option (Json × List Char)
  | 0, _, _ => none
  | fuel + 1, cs, acc =>
    match cs with
    | c :: rest =>
      if c = '"' then
        match parseStringBody (rest.length + 1) rest with
        | some (key, r1) =>
          match skipWs r1 with
          | c2 :: r2 =>
            if c2 = ':' then
              match parseValue fuel (skipWs r2) with
              | some (v, r3) =>
                match skipWs r3 with
                | c4 :: r4 =>
                  if c4 = ',' then parseObjRest fuel (skipWs r4) (acc ++ [(String.mk key, v)])
                  else if c4 = rbrace then some (.obj (acc ++ [(String.mk key, v)]), r4)
                  else none
                | [] => none
              | none => none
            else none
          | [] => none
        | none => none
      else none
    | [] => none

/-- Elements of a nonempty JSON array, positioned at the first character of a
value; accumulates decoded elements in order. -/
def parseArrRest : Nat → List Char → List Json → Option (Json × List Char)
  | 0, _, _ => none
  | fuel + 1, cs, acc =>
    match parseValue fuel cs with
    | some (v, r1) =>
      match skipWs r1 with
      | c2 :: r2 =>
        if c2 = ',' then parseArrRest fuel (skipWs r2) (acc ++ [v])
        else if c2 = ']' then some (.arr (acc ++ [v]), r2)
        else none
      | [] => none
    | none => none

end

/-- Model of Python `json.loads`: skip leading whitespace, scan one value,
require only whitespace afterwards.  `none` models a raised
`json.JSONDecodeError`.  The fuel is an upper bound on scanner steps; each
step either consumes input or descends past a consumed bracket, so four steps
per character is ample. -/
def json_loads (s : String) : Option Json :=
  match parseValue (4 * s.data.length + 8) (skipWs s.data) with
  | some (v, rest) => if skipWs rest = [] then some v else none
  | none => none

/-- Python truthiness of a `json.loads` result, as used by
`if partial_result:` (gemini_client.py line 115) and the save guards. -/
def numIsZero (lit : String) : Bool :=
  let mantissa := lit.data.takeWhile (fun c => !(c = 'e' || c = 'E'))
  !(lit.data.any (fun c => c = 'N' || c = 'I')) &&
    !(mantissa.any (fun c => c.isDigit && !(c = '0')))

/-- Python truthiness of a JSON value (`None`, `False`, numeric zero, empty
string, empty list, empty dict are falsy). -/
def pyTruthy : Json → Bool
  | .null => false
  | .bool b => b
  | .num lit => !(numIsZero lit)
  | .str s => !(s.data.isEmpty)
  | .arr items => !(items.isEmpty)
  | .obj members => !(members.isEmpty)

/-- `GeminiClient._try_partial_json` (gemini_client.py lines 139–158): apply
the closure repair, re-parse once, and convert any parse error (`except:`)
into `None`. -/
def GeminiClient.try_repair_json (_self : GeminiClient) (text : String) : Option Json :=
  json_loads (repairText text)

/-- Failure classification for the typed result of the normalization
pipeline, following the spec's error taxonomy (spec §7). -/
inductive ErrorKind where
  | emptyResponse
  | malformedResponse
  | maxRetriesExceeded
deriving DecidableEq

/-- Typed result of one whole `normalize` call: the spec's
`GenerationResult`.  `ok` models the `return result` of a successful parse
(gemini_client.py lines 106–107, 115–116); `err` models the error dictionary
returned on failure, carrying its `"error"` message and the truncated
`"raw_response"` diagnostic snippet. -/
inductive GenerationResult where
  | ok (payload : Json)
  | err (kind : ErrorKind) (message : String) (snippet : Option String)

/-- The `"error"` message of the parse-failure dictionary
(gemini_client.py line 119). -/
def failMsg : String := "Failed to parse JSON response from Gemini"

/-- The diagnostic truncation `response_text[:500]` (gemini_client.py
line 121). -/
def snippet500 (t : String) : String := String.mk (t.data.take 500)

/-- The last-attempt branch of the retry loop (gemini_client.py
lines 112–123): on the final attempt, try `_try_partial_json` on the cleaned
text; a truthy result is returned as the payload (`if partial_result:`),
otherwise the malformed-response error dictionary is returned. -/
def normalize_last_attempt (g : GeminiClient) (t : String) : GenerationResult :=
  match g.try_repair_json t with
  | some v =>
    if pyTruthy v then .ok v
    else .err .malformedResponse failMsg (some (snippet500 t))
  | none => .err .malformedResponse failMsg (some (snippet500 t))

/-- The per-attempt text preparation (gemini_client.py lines 98–102):
`response.text.strip()`, then `_clean_json_response`, then
`_fix_json_issues`. -/
def cleaned_text (g : GeminiClient) (raw : String) : String :=
  g.fix_json_issues (g.clean_json_response (pyStrip raw))

/-- The attempt loop of `generate_content` restricted to its text-processing
slice (gemini_client.py lines 97–123): attempt `i` receives raw text
`texts i` (the Generation Invoker re-issues the network call between
attempts); `rem` is the number of attempts still allowed.  `rem = 0` models
falling off the loop (the `"Max retries exceeded"` fallback, lines 134–137). -/
def normalizeGo (g : GeminiClient) (texts : Nat → String) : Nat → Nat → GenerationResult
  | _, 0 => .err .maxRetriesExceeded "Max retries exceeded" none
  | i, rem + 1 =>
    match json_loads (cleaned_text g (texts i)) with
    | some v => .ok v
    | none =>
      if 1 ≤ rem then normalizeGo g texts (i + 1) rem
      else normalize_last_attempt g (cleaned_text g (texts i))

/-- The spec's `normalize(raw, maxAttempts)` operation: the text-processing
slice of `GeminiClient.generate_content` with the raw text of each attempt
supplied externally. -/
def normalize (g : GeminiClient) (texts : Nat → String) (maxAttempts : Nat) : GenerationResult :=
  normalizeGo g texts 0 maxAttempts

/-- Error kind carried by a result, if any. -/
def kindOf : GenerationResult → Option ErrorKind
  | .ok _ => none
  | .err k _ _ => some k

/-- Instrumented attempt loop: additionally returns how many attempts were
executed (each attempt performs exactly one strict parse of its cleaned text)
and whether the last-attempt closure repair was reached. -/
def normalizeTraceGo (g : GeminiClient) (texts : Nat → String) :
    Nat → Nat → GenerationResult × Nat × Bool
  | _, 0 => (.err .maxRetriesExceeded "Max retries exceeded" none, 0, false)
  | i, rem + 1 =>
    match json_loads (cleaned_text g (texts i)) with
    | some v => (.ok v, 1, false)
    | none =>
      if 1 ≤ rem then
        let r := normalizeTraceGo g texts (i + 1) rem
        (r.1, r.2.1 + 1, r.2.2)
      else (normalize_last_attempt g (cleaned_text g (texts i)), 1, true)

/-- Attempts executed by `normalize`. -/
def normalizeAttempts (g : GeminiClient) (texts : Nat → String) (maxAttempts : Nat) : Nat :=
  (normalizeTraceGo g texts 0 maxAttempts).2.1

/-- Whether `normalize` reached the last-attempt closure repair. -/
def normalizeRepairUsed (g : GeminiClient) (texts : Nat → String) (maxAttempts : Nat) : Bool :=
  (normalizeTraceGo g texts 0 maxAttempts).2.2

/-- A fixed client value for concrete evaluations. -/
def client0 : GeminiClient := ⟨""⟩

/-- Outcome of one `self.model.generate_content(prompt)` network call as
inspected by the retry loop (gemini_client.py lines 74–98): the call may
raise (any exception, including a failing `response.text` access), may return
no candidates, or returns a first candidate with a `finish_reason` and text. -/
inductive ApiOutcome where
  | raised (msg : String)
  | noCandidates
  | candidate (finish_reason : Int) (text : String)

/-- Error dictionary for a blocked prompt (gemini_client.py lines 78–81). -/
def blockedDict : Json :=
  .obj [("error", .str "Content blocked by safety filters"),
        ("suggestion", .str "Try rephrasing your query with different wording.")]

/-- Error dictionary for `finish_reason == 2` (gemini_client.py lines 87–90). -/
def safetyDict : Json :=
  .obj [("error", .str "Response blocked for safety reasons"),
        ("suggestion", .str "Try a different topic or rephrase your question.")]

/-- Error dictionary for `finish_reason == 3` (gemini_client.py lines 92–95). -/
def recitationDict : Json :=
  .obj [("error", .str "Response blocked due to recitation concerns"),
        ("suggestion", .str "Try asking in a different way.")]

/-- Parse-failure dictionary (gemini_client.py lines 118–123).  The
`"details"` field holds `str(e)`, the Python exception text, which the model
leaves empty. -/
def parseFailDict (t : String) : Json :=
  .obj [("error", .str failMsg),
        ("details", .str ""),
        ("raw_response", .str (snippet500 t)),
        ("suggestion", .str "The AI returned invalid JSON. Try rephrasing your query or try again.")]

/-- API-error dictionary from the outer `except` (gemini_client.py
lines 129–132). -/
def apiErrorDict (msg : String) : Json :=
  .obj [("error", .str ("Gemini API error: " ++ msg)),
        ("suggestion", .str "Check your API key and internet connection, or try again.")]

/-- Post-loop fallback dictionary (gemini_client.py lines 134–137). -/
def maxRetriesDict : Json :=
  .obj [("error", .str "Max retries exceeded"),
        ("suggestion", .str "Please try again.")]

/-- The body of `GeminiClient.generate_content`'s `for attempt in
range(max_retries)` loop (gemini_client.py lines 71–132), one constructor
branch per `return`/`continue` site.  `outcomes i` is what the network call
of attempt `i` produces; `rem` is the number of iterations the loop still
has, so the current attempt is the last one exactly when `rem = 0` inside the
body (`attempt < max_retries - 1` fails).  A `none` result means the loop ran
out of iterations without returning, in which case `generate_content` falls
through to `maxRetriesDict`. -/
def generate_content_loop (g : GeminiClient) (outcomes : Nat → ApiOutcome) :
    Nat → Nat → Option Json
  | _, 0 => none
  | i, rem + 1 =>
    match outcomes i with
    | .raised msg =>
      if 1 ≤ rem then generate_content_loop g outcomes (i + 1) rem
      else some (apiErrorDict msg)
    | .noCandidates => some blockedDict
    | .candidate reason text =>
      if reason = 2 then some safetyDict
      else if reason = 3 then some recitationDict
      else
        match json_loads (cleaned_text g text) with
        | some v => some v
        | none =>
          if 1 ≤ rem then generate_content_loop g outcomes (i + 1) rem
          else
            match g.try_repair_json (cleaned_text g text) with
            | some v =>
              if pyTruthy v then some v
              else some (parseFailDict (cleaned_text g text))
            | none => some (parseFailDict (cleaned_text g text))

/-- `GeminiClient.generate_content` (gemini_client.py lines 60–137): run the
retry loop; if it completes without returning, return the
`"Max retries exceeded"` fallback. -/
def GeminiClient.generate_content (self : GeminiClient) (outcomes : Nat → ApiOutcome)
    (max_retries : Nat) : Json :=
  match generate_content_loop self outcomes 0 max_retries with
  | some d => d
  | none => maxRetriesDict

/-- Python `k in d` on a JSON object's member list. -/
def dictContains (members : List (String × Json)) (k : String) : Bool :=
  members.any (fun m => m.1 = k)

/-- Python `d.get(k, default)` (first binding wins; `json.loads` produces
unique keys). -/
def dictGet (members : List (String × Json)) (k : String) (dflt : Json) : Json :=
  match members.find? (fun m => m.1 = k) with
  | some m => m.2
  | none => dflt

/-- Python `str(v)` as used by f-string interpolation in the formatting
functions.  String values interpolate as themselves; the container cases are
summary placeholders (no claim inspects them). -/
def pyStrVal : Json → String
  | .null => "None"
  | .bool true => "True"
  | .bool false => "False"
  | .num lit => lit
  | .str s => s
  | .arr _ => "[...]"
  | .obj _ => "\x7b...\x7d"

/-- Python iteration `for point in v` over a `result.get(...)` value: lists
iterate over elements, strings over characters; other values raise
`TypeError` in Python and are modelled as empty (no claim reaches them). -/
def jsonIter : Json → List Json
  | .arr items => items
  | .str s => s.data.map (fun c => .str (String.mk [c]))
  | _ => []

/-- `format_explanation` (app_dark.py lines 68–78): an `"error"` key routes
to the error rendering, preferring the `"suggestion"` field; otherwise the
explanation Markdown is assembled. -/
def format_explanation (result : List (String × Json)) : String :=
  if dictContains result "error" then
    "❌ **Error:** " ++ pyStrVal (dictGet result "suggestion" (dictGet result "error" .null))
  else
    let out := "# " ++ pyStrVal (dictGet result "topic" (.str "Explanation")) ++ "\n\n"
    let out := out ++ pyStrVal (dictGet result "explanation" (.str "")) ++ "\n\n"
    let out := out ++ "## 💡 Key Points\n\n"
    let out := (jsonIter (dictGet result "key_points" (.arr []))).foldl
      (fun acc p => acc ++ "- " ++ pyStrVal p ++ "\n") out
    out ++ "\n## 🌍 Real-World Example\n\n" ++ pyStrVal (dictGet result "real_world_example" (.str ""))

/-- Truthiness of `_student_context.student_id` (an optional integer). -/
def optNatTruthy : Option Nat → Bool
  | some n => !(n = 0)
  | none => false

/-- The save guard of `handle_explain_topic` (server.py lines 273–282):
`db.save_explanation` runs only when the result has no `"error"` key, a
student is registered, and the `"explanation"` field is truthy. -/
def saves_explanation (result : List (String × Json)) (student_id : Option Nat) : Bool :=
  !(dictContains result "error") && optNatTruthy student_id &&
    pyTruthy (dictGet result "explanation" (.str ""))

/-- Shape information delivered by a successful `parseValue` run about the
segment of input it consumed: when the consumed segment ends in a closing
brace the value is an object, and when that object is empty the segment is an
opening brace, whitespace, and the closing brace. -/
def ConsumedShape (v : Json) (pre : List Char) : Prop :=
  pre.getLast? = some rbrace →
    ∃ members, v = .obj members ∧
      (members = [] →
        ∃ w, pre = lbrace :: (w ++ [rbrace]) ∧ ∀ a ∈ w, isJsonWs a = true)


/-! Section: generic list helpers -/

theorem getLast?_mem' {α : Type} {l : List α} {x : α} (h : l.getLast? = some x) : x ∈ l := by
  induction l with
  | nil => simp [List.getLast?] at h
  | cons a t ih =>
    cases t with
    | nil => simp [List.getLast?] at h; simp [h]
    | cons b t' =>
      rw [List.getLast?_cons_cons] at h
      exact List.mem_cons_of_mem a (ih h)

theorem concat_inj' {α : Type} {a b : List α} {x y : α}
    (h : a ++ [x] = b ++ [y]) : a = b ∧ x = y := by
  have hr := congrArg List.reverse h
  simp only [List.reverse_append, List.reverse_cons, List.reverse_nil, List.nil_append,
    List.singleton_append, List.cons.injEq] at hr
  exact ⟨by simpa using congrArg List.reverse hr.2, hr.1⟩

theorem eq_nil_or_concat' {α : Type} (l : List α) : l = [] ∨ ∃ t x, l = t ++ [x] := by
  induction l with
  | nil => exact Or.inl rfl
  | cons a t ih =>
    rcases ih with h | ⟨t', x, h⟩
    · exact Or.inr ⟨[], a, by simp [h]⟩
    · exact Or.inr ⟨a :: t', x, by simp [h]⟩

theorem mem_of_mem_dropWhile' {α : Type} {p : α → Bool} {l : List α} {a : α}
    (h : a ∈ l.dropWhile p) : a ∈ l := by
  induction l with
  | nil => simp at h
  | cons b t ih =>
    rw [List.dropWhile_cons] at h
    by_cases hb : p b = true
    · simp only [hb, if_true] at h
      exact List.mem_cons_of_mem b (ih h)
    · simp only [hb, if_false] at h
      exact h

theorem head?_dropWhile' {α : Type} {p : α → Bool} {l : List α} {a : α}
    (h : (l.dropWhile p).head? = some a) : p a = false := by
  induction l with
  | nil => simp [List.dropWhile] at h
  | cons b t ih =>
    rw [List.dropWhile_cons] at h
    cases hb : p b with
    | true =>
      simp only [hb, if_true] at h
      exact ih h
    | false =>
      rw [hb] at h
      simp only [Bool.false_eq_true, if_false, List.head?_cons, Option.some.injEq] at h
      subst h
      exact hb

theorem dropWhile_eq_self' {α : Type} {p : α → Bool} {l : List α}
    (h : ∀ a, l.head? = some a → p a = false) : l.dropWhile p = l := by
  cases l with
  | nil => rfl
  | cons b t =>
    rw [List.dropWhile_cons]
    simp [h b rfl]

/-! Section: claim C9: purity and state independence of the normalization steps -/

/-- Claim C9: the normalization steps (fence stripping, quote normalization,
trailing-comma removal, closure repair) are pure and deterministic.  In this
embedding the Python methods are total functions of the client value and the
text; the theorem shows that their output does not depend on the client state
at all (the methods read no instance state), so two runs — on the same or on
different client instances — produce identical results, and the result is a
function of the text alone. -/
theorem c9_normalization_pure (g1 g2 : GeminiClient) (t : String) :
    g1.clean_json_response t = g2.clean_json_response t ∧
    g1.fix_json_issues t = g2.fix_json_issues t ∧
    g1.try_repair_json t = g2.try_repair_json t ∧
    cleaned_text g1 t = cleaned_text g2 t :=
  ⟨rfl, rfl, rfl, rfl⟩

/-! Section: claim C10: the post-loop fallback is unreachable -/

theorem generate_content_loop_isSome (g : GeminiClient) (outcomes : Nat → ApiOutcome) :
    ∀ rem i, 1 ≤ rem → (generate_content_loop g outcomes i rem).isSome = true := by
  intro rem
  induction rem with
  | zero => intro i h; omega
  | succ r ih =>
    intro i _
    show (generate_content_loop g outcomes i (r + 1)).isSome = true
    rw [generate_content_loop]
    cases houtcome : outcomes i with
    | raised msg =>
      by_cases h1 : 1 ≤ r
      · simp only [if_pos h1]
        exact ih (i + 1) h1
      · simp [if_neg h1]
    | noCandidates => simp
    | candidate reason text =>
      by_cases h2 : reason = 2
      · simp [h2]
      · by_cases h3 : reason = 3
        · simp [h2, h3]
        · simp only [if_neg h2, if_neg h3]
          cases hj : json_loads (cleaned_text g text) with
          | some v => simp
          | none =>
            by_cases h1 : 1 ≤ r
            · simp only [if_pos h1]
              exact ih (i + 1) h1
            · cases hr : g.try_repair_json (cleaned_text g text) with
              | some v => by_cases ht : pyTruthy v <;> simp [if_neg h1, ht]
              | none => simp [if_neg h1]

/-- Claim C10: for every `max_retries ≥ 1` the `"Max retries exceeded"`
fallback placed after the retry loop is unreachable — every iteration of the
loop either returns or continues, and on the final iteration every branch
returns, so the loop body always produces a result (`generate_content_loop`
never returns `none`) and `generate_content` returns that result. -/
theorem c10_fallback_unreachable (g : GeminiClient) (outcomes : Nat → ApiOutcome)
    (max_retries : Nat) (h : 1 ≤ max_retries) :
    ∃ d, generate_content_loop g outcomes 0 max_retries = some d ∧
      g.generate_content outcomes max_retries = d := by
  have hs := generate_content_loop_isSome g outcomes max_retries 0 h
  cases hd : generate_content_loop g outcomes 0 max_retries with
  | none => rw [hd] at hs; simp at hs
  | some d =>
    refine ⟨d, rfl, ?_⟩
    rw [GeminiClient.generate_content, hd]

/-- Witness for C10 at a concrete environment and `max_retries = 3`. -/
theorem c10_witness :
    1 ≤ 3 ∧ ∃ d, generate_content_loop client0 (fun _ => ApiOutcome.noCandidates) 0 3 = some d ∧
      client0.generate_content (fun _ => ApiOutcome.noCandidates) 3 = d :=
  ⟨by decide, c10_fallback_unreachable client0 (fun _ => ApiOutcome.noCandidates) 3 (by decide)⟩

/-! Section: claim C1: normalize always returns a typed result -/

theorem normalizeGo_ok_or_malformed (g : GeminiClient) (texts : Nat → String) :
    ∀ rem i, 1 ≤ rem →
      (∃ p, normalizeGo g texts i rem = .ok p) ∨
      (∃ msg snip, normalizeGo g texts i rem = .err .malformedResponse msg snip) := by
  intro rem
  induction rem with
  | zero => intro i h; omega
  | succ r ih =>
    intro i _
    rw [normalizeGo]
    cases hj : json_loads (cleaned_text g (texts i)) with
    | some v => exact Or.inl ⟨v, rfl⟩
    | none =>
      by_cases h1 : 1 ≤ r
      · simp only [if_pos h1]
        exact ih (i + 1) h1
      · simp only [if_neg h1]
        rw [normalize_last_attempt]
        cases hr : g.try_repair_json (cleaned_text g (texts i)) with
        | some v =>
          by_cases ht : pyTruthy v
          · simp only [ht, if_true]
            exact Or.inl ⟨v, rfl⟩
          · simp only [ht, if_false]
            exact Or.inr ⟨_, _, rfl⟩
        | none => exact Or.inr ⟨_, _, rfl⟩

/-- Claim C1: for every sequence of raw input texts and every
`maxAttempts ≥ 1`, `normalize` returns a typed result — `ok` with a payload,
or `err` with the malformed-response kind, a message and a snippet — and
never escapes by any other route.  Expected malformation (unparseable,
truncated or otherwise malformed JSON) is handled inside the function: in
this embedding `json_loads` returning `none` models the raised
`JSONDecodeError`, and every consumer of that `none` produces a result, so
the translation is total. -/
theorem c1_normalize_total_typed (g : GeminiClient) (texts : Nat → String) (n : Nat)
    (h : 1 ≤ n) :
    (∃ p, normalize g texts n = .ok p) ∨
    (∃ msg snip, normalize g texts n = .err .malformedResponse msg snip) :=
  normalizeGo_ok_or_malformed g texts n 0 h

/-- Witness for C1 at the empty raw text and `maxAttempts = 1`. -/
theorem c1_witness :
    1 ≤ 1 ∧
      ((∃ p, normalize client0 (fun _ => "") 1 = .ok p) ∨
       (∃ msg snip, normalize client0 (fun _ => "") 1 = .err .malformedResponse msg snip)) :=
  ⟨by decide, c1_normalize_total_typed client0 (fun _ => "") 1 (by decide)⟩

/-! Section: claim C7: the diagnostic snippet is bounded by 500 characters -/

theorem normalizeGo_snippet_bound (g : GeminiClient) (texts : Nat → String) :
    ∀ rem i k msg s, normalizeGo g texts i rem = .err k msg (some s) → s.length ≤ 500 := by
  intro rem
  induction rem with
  | zero =>
    intro i k msg s h
    rw [normalizeGo] at h
    cases h
  | succ r ih =>
    intro i k msg s h
    cases hj : json_loads (cleaned_text g (texts i)) with
    | some v =>
      rw [normalizeGo, hj] at h
      cases h
    | none =>
      rw [normalizeGo, hj] at h
      dsimp only at h
      by_cases h1 : 1 ≤ r
      · rw [if_pos h1] at h
        exact ih (i + 1) k msg s h
      · rw [if_neg h1, normalize_last_attempt] at h
        have hsnip : s = snippet500 (cleaned_text g (texts i)) → s.length ≤ 500 := by
          intro hs
          subst hs
          show (String.mk ((cleaned_text g (texts i)).data.take 500)).length ≤ 500
          have : (String.mk ((cleaned_text g (texts i)).data.take 500)).length =
              ((cleaned_text g (texts i)).data.take 500).length := rfl
          rw [this, List.length_take]
          omega
        cases hr : g.try_repair_json (cleaned_text g (texts i)) with
        | some v =>
          rw [hr] at h
          dsimp only at h
          by_cases ht : pyTruthy v = true
          · rw [if_pos ht] at h; cases h
          · rw [if_neg ht] at h
            cases h
            exact hsnip rfl
        | none =>
          rw [hr] at h
          dsimp only at h
          cases h
          exact hsnip rfl

/-- Claim C7: whenever `normalize` returns a malformed-response error (for an
unparseable input of any length), the raw-text diagnostic snippet carried in
the error value is at most 500 characters long — it is the `[:500]` slice of
the cleaned response text. -/
theorem c7_snippet_bound (g : GeminiClient) (texts : Nat → String) (n : Nat)
    (k : ErrorKind) (msg : String) (s : String)
    (h : normalize g texts n = .err k msg (some s)) : s.length ≤ 500 :=
  normalizeGo_snippet_bound g texts n 0 k msg s h

/-- Witness for C7 at the unparseable raw text `"x"` and one attempt. -/
theorem c7_witness :
    normalize client0 (fun _ => "x") 1 = .err .malformedResponse failMsg (some "x") ∧
      ("x" : String).length ≤ 500 :=
  ⟨rfl, c7_snippet_bound client0 (fun _ => "x") 1 .malformedResponse failMsg "x" rfl⟩

/-! Section: claim C5: attempt bound and first-success short-circuit -/

theorem normalizeTraceGo_fst (g : GeminiClient) (texts : Nat → String) :
    ∀ rem i, (normalizeTraceGo g texts i rem).1 = normalizeGo g texts i rem := by
  intro rem
  induction rem with
  | zero => intro i; rfl
  | succ r ih =>
    intro i
    rw [normalizeTraceGo, normalizeGo]
    cases hj : json_loads (cleaned_text g (texts i)) with
    | some v => rfl
    | none =>
      by_cases h1 : 1 ≤ r
      · simp only [if_pos h1]
        exact ih (i + 1)
      · simp only [if_neg h1]

theorem normalizeTraceGo_bound (g : GeminiClient) (texts : Nat → String) :
    ∀ rem i, (normalizeTraceGo g texts i rem).2.1 ≤ rem := by
  intro rem
  induction rem with
  | zero => intro i; simp [normalizeTraceGo]
  | succ r ih =>
    intro i
    rw [normalizeTraceGo]
    cases hj : json_loads (cleaned_text g (texts i)) with
    | some v => simp
    | none =>
      by_cases h1 : 1 ≤ r
      · simp only [if_pos h1]
        have := ih (i + 1)
        omega
      · simp only [if_neg h1]
        omega

set_option maxHeartbeats 1600000 in
theorem normalizeTraceGo_firstOk (g : GeminiClient) (texts : Nat → String) :
    ∀ k rem i p, k < rem →
      (∀ j, j < k → json_loads (cleaned_text g (texts (i + j))) = none) →
      json_loads (cleaned_text g (texts (i + k))) = some p →
      normalizeTraceGo g texts i rem = (.ok p, k + 1, false) := by
  intro k
  induction k with
  | zero =>
    intro rem i p hlt _ hok
    cases rem with
    | zero => omega
    | succ r =>
      rw [normalizeTraceGo]
      rw [show i + 0 = i from rfl] at hok
      rw [hok]
  | succ k ih =>
    intro rem i p hlt hfail hok
    cases rem with
    | zero => omega
    | succ r =>
      rw [normalizeTraceGo]
      have h0 : json_loads (cleaned_text g (texts i)) = none := by
        have := hfail 0 (by omega)
        rwa [show i + 0 = i from rfl] at this
      rw [h0]
      have h1 : 1 ≤ r := by omega
      simp only [if_pos h1]
      have hrec : normalizeTraceGo g texts (i + 1) r = (.ok p, k + 1, false) := by
        apply ih r (i + 1) p (by omega)
        · intro j hj
          have := hfail (j + 1) (by omega)
          rwa [show i + (j + 1) = i + 1 + j by omega] at this
        · rwa [show i + (k + 1) = i + 1 + k by omega] at hok
      rw [hrec]

/-- Claim C5: for every sequence of raw texts and `maxAttempts = N`,
`normalize` performs at most `N` attempts (each attempt performs exactly one
strict parse of its cleaned text), and the first attempt whose strict parse
succeeds returns `ok` of that payload immediately: exactly `k + 1` attempts
are executed when attempt `k` is the first success, and the last-attempt
closure repair is never reached — no further cleanup, repair or parsing
occurs after the first success. -/
theorem c5_attempt_bound_short_circuit (g : GeminiClient) (texts : Nat → String) (N : Nat) :
    normalizeAttempts g texts N ≤ N ∧
    ∀ k p, k < N →
      (∀ j, j < k → json_loads (cleaned_text g (texts j)) = none) →
      json_loads (cleaned_text g (texts k)) = some p →
      normalize g texts N = .ok p ∧ normalizeAttempts g texts N = k + 1 ∧
        normalizeRepairUsed g texts N = false := by
  constructor
  · exact normalizeTraceGo_bound g texts N 0
  · intro k p hlt hfail hok
    have htr : normalizeTraceGo g texts 0 N = (.ok p, k + 1, false) := by
      apply normalizeTraceGo_firstOk g texts k N 0 p hlt
      · intro j hj
        rw [show 0 + j = j from by omega]
        exact hfail j hj
      · rwa [show 0 + k = k from by omega]
    refine ⟨?_, ?_, ?_⟩
    · have := normalizeTraceGo_fst g texts N 0
      rw [normalize, ← this, htr]
    · rw [normalizeAttempts, htr]
    · rw [normalizeRepairUsed, htr]

/-- Witness for C5: the first raw text is unparseable, the second parses, so
with `N = 3` the loop stops after two attempts with the parsed payload. -/
theorem c5_witness :
    normalize client0 (fun j => if j = 0 then "x" else "\x7b\x7d") 3 = .ok (.obj []) ∧
      normalizeAttempts client0 (fun j => if j = 0 then "x" else "\x7b\x7d") 3 = 2 ∧
      normalizeRepairUsed client0 (fun j => if j = 0 then "x" else "\x7b\x7d") 3 = false := by
  have h := (c5_attempt_bound_short_circuit client0
      (fun j => if j = 0 then "x" else "\x7b\x7d") 3).2 1 (.obj [])
    (by omega)
    (by
      intro j hj
      have hj0 : j = 0 := by omega
      subst hj0
      rfl)
    rfl
  exact h

/-! Section: claim C6: end-to-end scenario -/

set_option maxHeartbeats 1600000 in
/-- Claim C6: on the markdown-fenced raw input with a trailing comma,
`normalize` strips the fence lines, deletes the trailing comma before the
closing brace, parses successfully on the first attempt, and returns `ok` of
the expected two-field mapping. -/
theorem c6_end_to_end :
    normalize client0
        (fun _ => "```json\n\x7b\"topic\": \"Fractions\", \"key_points\": [\"a\", \"b\"], \x7d\n```") 3 =
      .ok (.obj [("topic", .str "Fractions"), ("key_points", .arr [.str "a", .str "b"])]) ∧
    normalizeAttempts client0
        (fun _ => "```json\n\x7b\"topic\": \"Fractions\", \"key_points\": [\"a\", \"b\"], \x7d\n```") 3 = 1 ∧
    cleaned_text client0 "```json\n\x7b\"topic\": \"Fractions\", \"key_points\": [\"a\", \"b\"], \x7d\n```" =
      "\x7b\"topic\": \"Fractions\", \"key_points\": [\"a\", \"b\"] \x7d" :=
  ⟨rfl, rfl, rfl⟩

/-! Section: claim C2: empty input produces a malformed-response error, not a
distinct empty-response kind -/

theorem cleaned_text_of_ws (g : GeminiClient) (s : String)
    (h : ∀ c ∈ s.data, isPyWs c = true) : cleaned_text g s = "" := by
  have hstrip : pyStrip s = "" := by
    rw [pyStrip, pyStripData]
    rw [List.dropWhile_eq_nil_iff.mpr h]
    rfl
  rw [cleaned_text, hstrip]
  rfl

theorem normalizeGo_ws_err (g : GeminiClient) (texts : Nat → String)
    (hws : ∀ i, ∀ c ∈ (texts i).data, isPyWs c = true) :
    ∀ rem i, 1 ≤ rem →
      normalizeGo g texts i rem = .err .malformedResponse failMsg (some "") := by
  intro rem
  induction rem with
  | zero => intro i h; omega
  | succ r ih =>
    intro i _
    have hct : cleaned_text g (texts i) = "" := cleaned_text_of_ws g (texts i) (hws i)
    rw [normalizeGo, hct]
    have hjl : json_loads "" = none := rfl
    rw [hjl]
    by_cases h1 : 1 ≤ r
    · simp only [if_pos h1]
      exact ih (i + 1) h1
    · simp only [if_neg h1]
      rfl

/-- Claim C2, corrected: for every `maxAttempts ≥ 1`, when each attempt's raw
text is empty or whitespace-only, `normalize` returns the malformed-response
error (with an empty diagnostic snippet).  The code has no separate
empty-response classification: empty input flows through the same
parse-failure path as any unparseable text. -/
theorem c2_amended_empty_is_malformed (g : GeminiClient) (texts : Nat → String) (n : Nat)
    (h1 : 1 ≤ n) (h2 : ∀ i, ∀ c ∈ (texts i).data, isPyWs c = true) :
    normalize g texts n = .err .malformedResponse failMsg (some "") :=
  normalizeGo_ws_err g texts h2 n 0 h1

/-- Counterexample for C2 as stated: on the empty raw text with one attempt,
`normalize` returns the malformed-response kind, not an empty-response
kind. -/
theorem c2_counterexample :
    normalize client0 (fun _ => "") 1 = .err .malformedResponse failMsg (some "") ∧
      kindOf (normalize client0 (fun _ => "") 1) ≠ some ErrorKind.emptyResponse :=
  ⟨rfl, by decide⟩

/-- Witness for the corrected C2 at the whitespace raw text and two attempts. -/
theorem c2_witness :
    1 ≤ 2 ∧ normalize client0 (fun _ => "   ") 2 = .err .malformedResponse failMsg (some "") := by
  refine ⟨by decide, c2_amended_empty_is_malformed client0 (fun _ => "   ") 2 (by decide) ?_⟩
  intro i
  show ∀ c ∈ ("   " : String).data, isPyWs c = true
  decide

/-! Section: claim C3: idempotence of the cleanup pipeline -/

theorem fixQuoteChar_id (c : Char) : fixQuoteChar c = c := by
  rw [fixQuoteChar]
  by_cases h1 : c = '"'
  · subst h1
    simp
  · simp only [if_neg h1]
    by_cases h2 : c = '\''
    · subst h2
      simp
    · simp [if_neg h2]

theorem fenceOpenTry_none {cs : List Char} (h : btick ∉ cs) : fenceOpenTry cs = none := by
  rw [fenceOpenTry]
  rw [if_neg]
  intro heq
  have hmem : btick ∈ cs.take 3 := by rw [heq]; simp
  exact h (List.take_subset 3 cs hmem)

theorem fenceCloseTry_none {cs : List Char} (h : btick ∉ cs) : fenceCloseTry cs = none := by
  rw [fenceCloseTry]
  rw [if_neg]
  intro heq
  have hmem : btick ∈ cs.take 3 := by rw [heq]; simp
  exact h (List.take_subset 3 cs hmem)

theorem fenceOpenGo_id : ∀ (fuel : Nat) (atStart : Bool) (cs : List Char),
    btick ∉ cs → fenceOpenGo fuel atStart cs = cs := by
  intro fuel
  induction fuel with
  | zero => intro atStart cs _; rfl
  | succ f ih =>
    intro atStart cs h
    cases cs with
    | nil => rfl
    | cons c rest =>
      have hrest : btick ∉ rest := fun hr => h (List.mem_cons_of_mem c hr)
      rw [fenceOpenGo]
      cases atStart with
      | false =>
        rw [if_neg (by simp)]
        rw [ih _ rest hrest]
      | true =>
        rw [if_pos rfl, fenceOpenTry_none h]
        rw [ih _ rest hrest]

theorem fenceCloseGo_id : ∀ (fuel : Nat) (cs : List Char),
    btick ∉ cs → fenceCloseGo fuel cs = cs := by
  intro fuel
  induction fuel with
  | zero => intro cs _; rfl
  | succ f ih =>
    intro cs h
    cases cs with
    | nil => rfl
    | cons c rest =>
      have hrest : btick ∉ rest := fun hr => h (List.mem_cons_of_mem c hr)
      rw [fenceCloseGo]
      by_cases hc : c = '\n'
      · rw [if_pos (by simp [hc]), fenceCloseTry_none hrest]
        rw [ih _ hrest]
      · rw [if_neg (by simp [hc])]
        rw [ih _ hrest]

theorem commaSubGo_id : ∀ (fuel : Nat) (cs : List Char),
    ',' ∉ cs → commaSubGo fuel cs = cs := by
  intro fuel
  induction fuel with
  | zero => intro cs _; rfl
  | succ f ih =>
    intro cs h
    cases cs with
    | nil => rfl
    | cons c rest =>
      have hc : ¬c = ',' := fun hc => h (hc ▸ List.mem_cons_self c rest)
      have hrest : (',' : Char) ∉ rest := fun hr => h (List.mem_cons_of_mem c hr)
      rw [commaSubGo]
      rw [if_neg (by simp [hc])]
      rw [ih _ hrest]

theorem mem_of_mem_pyStripData {l : List Char} {a : Char} (h : a ∈ pyStripData l) : a ∈ l := by
  rw [pyStripData, List.mem_reverse] at h
  have h2 := mem_of_mem_dropWhile' h
  rw [List.mem_reverse] at h2
  exact mem_of_mem_dropWhile' h2

theorem pyStripData_idem (l : List Char) : pyStripData (pyStripData l) = pyStripData l := by
  have hB2 : ((l.dropWhile isPyWs).reverse.dropWhile isPyWs).dropWhile isPyWs =
      (l.dropWhile isPyWs).reverse.dropWhile isPyWs :=
    dropWhile_eq_self' (fun a ha => head?_dropWhile' ha)
  have hdrop : (((l.dropWhile isPyWs).reverse.dropWhile isPyWs).reverse).dropWhile isPyWs =
      ((l.dropWhile isPyWs).reverse.dropWhile isPyWs).reverse := by
    apply dropWhile_eq_self'
    intro a ha
    have hsuf : ∃ pre, pre ++ (l.dropWhile isPyWs).reverse.dropWhile isPyWs =
        (l.dropWhile isPyWs).reverse := List.dropWhile_suffix isPyWs
    obtain ⟨pre, hpre⟩ := hsuf
    have hm : ((l.dropWhile isPyWs).reverse.dropWhile isPyWs).reverse ++ pre.reverse =
        l.dropWhile isPyWs := by
      have h2 := congrArg List.reverse hpre
      simpa [List.reverse_append] using h2
    cases hBr : ((l.dropWhile isPyWs).reverse.dropWhile isPyWs).reverse with
    | nil => rw [hBr] at ha; simp at ha
    | cons b bs =>
      rw [hBr] at ha
      simp only [List.head?_cons, Option.some.injEq] at ha
      have hhm : (l.dropWhile isPyWs).head? = some b := by
        rw [← hm, hBr]
        rfl
      rw [← ha]
      exact head?_dropWhile' hhm
  show ((((((l.dropWhile isPyWs).reverse.dropWhile isPyWs).reverse).dropWhile
      isPyWs).reverse).dropWhile isPyWs).reverse = _
  rw [hdrop, List.reverse_reverse, hB2]
  rfl

theorem clean_of_no_btick (g : GeminiClient) (s : String) (h : btick ∉ s.data) :
    g.clean_json_response s = String.mk (pyStripData s.data) := by
  show String.mk (pyStripData (fenceCloseGo (fenceOpenGo s.data.length true s.data).length
    (fenceOpenGo s.data.length true s.data))) = _
  rw [fenceOpenGo_id _ _ _ h, fenceCloseGo_id _ _ h]

theorem fix_of_no_comma (g : GeminiClient) (s : String) (h : (',' : Char) ∉ s.data) :
    g.fix_json_issues s = s := by
  have hmap : s.data.map fixQuoteChar = s.data := by
    have : fixQuoteChar = id := funext fixQuoteChar_id
    rw [this, List.map_id]
  show String.mk (commaSubGo (s.data.map fixQuoteChar).length (s.data.map fixQuoteChar)) = s
  rw [hmap, commaSubGo_id _ _ h]

/-- Claim C3, corrected: applying the cleanup pipeline (fence stripping, then
the quote `replace` chain, then trailing-comma removal) twice yields the same
string as applying it once, provided the text contains no backtick and no
comma.  Without that restriction the claim is false: the trailing-comma
`re.sub` performs a single left-to-right pass, so stacked trailing commas
(see `c3_counterexample`) need one pass each, and the final `strip` can move
a fence marker to a line start where only the second pass removes it. -/
theorem c3_amended_cleanup_idempotent (g : GeminiClient) (t : String)
    (hb : btick ∉ t.data) (hc : (',' : Char) ∉ t.data) :
    g.fix_json_issues (g.clean_json_response (g.fix_json_issues (g.clean_json_response t))) =
      g.fix_json_issues (g.clean_json_response t) := by
  have hu : g.clean_json_response t = String.mk (pyStripData t.data) := clean_of_no_btick g t hb
  have hudata : (String.mk (pyStripData t.data)).data = pyStripData t.data := rfl
  have hcu : (',' : Char) ∉ (String.mk (pyStripData t.data)).data := by
    rw [hudata]
    exact fun hm => hc (mem_of_mem_pyStripData hm)
  have hbu : btick ∉ (String.mk (pyStripData t.data)).data := by
    rw [hudata]
    exact fun hm => hb (mem_of_mem_pyStripData hm)
  have hfixu : g.fix_json_issues (String.mk (pyStripData t.data)) =
      String.mk (pyStripData t.data) := fix_of_no_comma g _ hcu
  rw [hu, hfixu]
  have hclean2 : g.clean_json_response (String.mk (pyStripData t.data)) =
      String.mk (pyStripData t.data) := by
    rw [clean_of_no_btick g _ hbu, hudata, pyStripData_idem]
  rw [hclean2, hfixu]

/-- Counterexample for C3 as stated: on the input consisting of two commas
and a closing brace, one application of the cleanup pipeline removes only the
second comma (the `re.sub` pass consumes the brace together with the match),
so a second application changes the string again. -/
theorem c3_counterexample :
    client0.fix_json_issues (client0.clean_json_response
        (client0.fix_json_issues (client0.clean_json_response ",,\x7d"))) ≠
      client0.fix_json_issues (client0.clean_json_response ",,\x7d") := by
  decide

/-- Witness for the corrected C3 on a brace-and-quote text with neither
backticks nor commas. -/
theorem c3_witness :
    btick ∉ ("\x7b\"a\": 1\x7d" : String).data ∧ (',' : Char) ∉ ("\x7b\"a\": 1\x7d" : String).data ∧
      client0.fix_json_issues (client0.clean_json_response
          (client0.fix_json_issues (client0.clean_json_response "\x7b\"a\": 1\x7d"))) =
        client0.fix_json_issues (client0.clean_json_response "\x7b\"a\": 1\x7d") :=
  ⟨by decide, by decide,
    c3_amended_cleanup_idempotent client0 "\x7b\"a\": 1\x7d" (by decide) (by decide)⟩

/-! Section: claim C8: an error-keyed payload is a logical failure for the consumer -/

/-- Claim C8: for every parsed payload whose top-level mapping contains the
key `"error"`, the consumer treats it as a logical failure: the presentation
layer renders the error message — preferring the `"suggestion"` field, with
the `"error"` value as fallback — instead of the explanation content, and the
persistence layer's save guard evaluates to false for every student context,
so the payload is never saved.  This is a payload-shape convention, distinct
from the parse-failure kinds. -/
theorem c8_error_key_logical_failure (result : List (String × Json)) (student_id : Option Nat)
    (h : dictContains result "error" = true) :
    format_explanation result =
      "❌ **Error:** " ++ pyStrVal (dictGet result "suggestion" (dictGet result "error" .null)) ∧
    saves_explanation result student_id = false := by
  constructor
  · rw [format_explanation, if_pos h]
  · rw [saves_explanation, h]
    rfl

/-- Witness for C8 at a one-entry error payload and an absent student. -/
theorem c8_witness :
    dictContains [("error", Json.str "boom")] "error" = true ∧
      (format_explanation [("error", Json.str "boom")] =
        "❌ **Error:** " ++ pyStrVal (dictGet [("error", Json.str "boom")] "suggestion"
          (dictGet [("error", Json.str "boom")] "error" .null)) ∧
       saves_explanation [("error", Json.str "boom")] none = false) :=
  ⟨rfl, c8_error_key_logical_failure [("error", Json.str "boom")] none rfl⟩

/-! Section: claim C4: shape lemmas for the strict JSON scanner

The heart of C4 is that when the closure-repaired text parses successfully,
the `if partial_result:` truthiness test cannot reject the payload: a
successful parse of a text ending in quote-brace is a nonempty object, which
is truthy.  The lemmas below track, for each scanner production, the segment
of input it consumed and that segment's last character. -/

theorem parseStringBody_shape : ∀ (fuel : Nat) (cs content rest : List Char),
    parseStringBody fuel cs = some (content, rest) →
    ∃ pre, cs = pre ++ rest ∧ pre ≠ [] ∧ pre.getLast? = some '"' := by
  intro fuel
  induction fuel with
  | zero =>
    intro cs content rest h
    rw [parseStringBody] at h
    cases h
  | succ f ih =>
    intro cs content rest h
    cases cs with
    | nil => rw [parseStringBody] at h; cases h
    | cons c cs1 =>
      cases cs1 with
      | nil =>
        rw [parseStringBody] at h
        by_cases hq : c = '"'
        · rw [if_pos hq] at h
          cases h
          exact ⟨[c], by simp, by simp, by simp [hq]⟩
        · rw [if_neg hq] at h
          by_cases hb : c = '\\'
          · rw [if_pos hb] at h; cases h
          · rw [if_neg hb] at h
            by_cases hctl : c.toNat < 32
            · rw [if_pos hctl] at h; cases h
            · rw [if_neg hctl] at h
              cases hrec : parseStringBody f [] with
              | none => rw [hrec] at h; cases h
              | some pr =>
                obtain ⟨pre', heq, hne, hlast⟩ := ih [] pr.1 pr.2 (by rw [hrec])
                exact absurd heq.symm (by simp [hne])
      | cons e cs2 =>
        rw [parseStringBody] at h
        by_cases hq : c = '"'
        · rw [if_pos hq] at h
          cases h
          exact ⟨[c], by simp, by simp, by simp [hq]⟩
        · rw [if_neg hq] at h
          by_cases hb : c = '\\'
          · rw [if_pos hb] at h
            by_cases hu : e = 'u'
            · rw [if_pos hu] at h
              split at h
              · rename_i a b c2 d ht4
                split at h
                · rename_i ha hb' hc' hd'
                  cases hrec : parseStringBody f (cs2.drop 4) with
                  | none => rw [hrec] at h; cases h
                  | some pr =>
                    rw [hrec] at h
                    cases h
                    obtain ⟨pre', heq, hne, hlast⟩ := ih (cs2.drop 4) pr.1 pr.2 (by rw [hrec])
                    refine ⟨c :: e :: a :: b :: c2 :: d :: pre', ?_, by simp, ?_⟩
                    · have hcs2 : cs2 = a :: b :: c2 :: d :: cs2.drop 4 := by
                        conv_lhs => rw [← List.take_append_drop 4 cs2]
                        rw [ht4]
                        rfl
                      rw [hcs2, heq]
                      simp
                    · show ((c :: e :: a :: b :: c2 :: [d]) ++ pre').getLast? = some '"'
                      rw [List.getLast?_append_of_ne_nil _ hne]
                      exact hlast
                · cases h
              · cases h
            · rw [if_neg hu] at h
              cases hec : escChar e with
              | none => rw [hec] at h; cases h
              | some ec =>
                rw [hec] at h
                cases hrec : parseStringBody f cs2 with
                | none => rw [hrec] at h; cases h
                | some pr =>
                  rw [hrec] at h
                  cases h
                  obtain ⟨pre', heq, hne, hlast⟩ := ih cs2 pr.1 pr.2 (by rw [hrec])
                  refine ⟨c :: e :: pre', ?_, by simp, ?_⟩
                  · rw [heq]; simp
                  · show ((c :: [e]) ++ pre').getLast? = some '"'
                    rw [List.getLast?_append_of_ne_nil _ hne]
                    exact hlast
          · rw [if_neg hb] at h
            by_cases hctl : c.toNat < 32
            · rw [if_pos hctl] at h; cases h
            · rw [if_neg hctl] at h
              cases hrec : parseStringBody f (e :: cs2) with
              | none => rw [hrec] at h; cases h
              | some pr =>
                rw [hrec] at h
                cases h
                obtain ⟨pre', heq, hne, hlast⟩ := ih (e :: cs2) pr.1 pr.2 (by rw [hrec])
                refine ⟨c :: pre', ?_, by simp, ?_⟩
                · rw [heq]; simp
                · show (([c]) ++ pre').getLast? = some '"'
                  rw [List.getLast?_append_of_ne_nil _ hne]
                  exact hlast

theorem parseIntDigits_shape {cs ip rest : List Char}
    (h : parseIntDigits cs = some (ip, rest)) :
    cs = ip ++ rest ∧ ip ≠ [] ∧ ∀ x, ip.getLast? = some x → x.isDigit = true := by
  cases cs with
  | nil => rw [parseIntDigits] at h; cases h
  | cons c cs1 =>
    rw [parseIntDigits] at h
    by_cases h0 : c = '0'
    · rw [if_pos h0] at h
      cases h
      refine ⟨by simp [h0], by simp, ?_⟩
      intro x hx
      simp only [List.getLast?_singleton, Option.some.injEq] at hx
      subst hx
      simp
    · rw [if_neg h0] at h
      by_cases hd : c.isDigit
      · rw [if_pos hd] at h
        cases h
        refine ⟨?_, by simp, ?_⟩
        · simp [List.takeWhile_append_dropWhile]
        · intro x hx
          cases htw : cs1.takeWhile Char.isDigit with
          | nil =>
            rw [htw] at hx
            simp only [List.getLast?_singleton, Option.some.injEq] at hx
            subst hx
            exact hd
          | cons d ds =>
            rw [htw] at hx
            rw [show c :: d :: ds = [c] ++ (d :: ds) from rfl,
              List.getLast?_append_of_ne_nil _ (by simp)] at hx
            have hxm : x ∈ d :: ds := getLast?_mem' hx
            rw [← htw] at hxm
            exact List.mem_takeWhile_imp hxm
      · rw [if_neg hd] at h
        cases h

theorem parseFrac_shape (cs : List Char) :
    cs = (parseFrac cs).1 ++ (parseFrac cs).2 ∧
      (∀ x, (parseFrac cs).1.getLast? = some x → x.isDigit = true) := by
  cases cs with
  | nil => simp [parseFrac]
  | cons c rest =>
    rw [parseFrac]
    by_cases hdot : c = '.'
    · rw [if_pos hdot]
      cases htw : rest.takeWhile Char.isDigit with
      | nil => simp
      | cons d ds =>
        constructor
        · show c :: rest = (c :: d :: ds) ++ rest.dropWhile Char.isDigit
          have hr : rest = (d :: ds) ++ rest.dropWhile Char.isDigit := by
            rw [← htw, List.takeWhile_append_dropWhile]
          conv_lhs => rw [hr]
          rfl
        · intro x hx
          simp only at hx
          rw [show c :: d :: ds = [c] ++ (d :: ds) from rfl,
            List.getLast?_append_of_ne_nil _ (by simp)] at hx
          have hxm : x ∈ d :: ds := getLast?_mem' hx
          rw [← htw] at hxm
          exact List.mem_takeWhile_imp hxm
    · rw [if_neg hdot]
      simp

theorem parseExp_shape (cs : List Char) :
    cs = (parseExp cs).1 ++ (parseExp cs).2 ∧
      (∀ x, (parseExp cs).1.getLast? = some x → x.isDigit = true) := by
  cases cs with
  | nil => simp [parseExp]
  | cons e rest =>
    cases rest with
    | nil =>
      rw [parseExp]
      by_cases he : (e = 'e' || e = 'E') = true
      · rw [if_pos he]; simp
      · rw [if_neg he]; simp
    | cons s rest2 =>
      rw [parseExp]
      by_cases he : (e = 'e' || e = 'E') = true
      · rw [if_pos he]
        by_cases hs : (s = '+' || s = '-') = true
        · rw [if_pos hs]
          cases htw : rest2.takeWhile Char.isDigit with
          | nil => simp
          | cons d ds =>
            constructor
            · show e :: s :: rest2 = (e :: s :: d :: ds) ++ rest2.dropWhile Char.isDigit
              have hr : rest2 = (d :: ds) ++ rest2.dropWhile Char.isDigit := by
                rw [← htw, List.takeWhile_append_dropWhile]
              conv_lhs => rw [hr]
              rfl
            · intro x hx
              simp only at hx
              rw [show e :: s :: d :: ds = [e, s] ++ (d :: ds) from rfl,
                List.getLast?_append_of_ne_nil _ (by simp)] at hx
              have hxm : x ∈ d :: ds := getLast?_mem' hx
              rw [← htw] at hxm
              exact List.mem_takeWhile_imp hxm
        · rw [if_neg hs]
          cases htw : (s :: rest2).takeWhile Char.isDigit with
          | nil => simp
          | cons d ds =>
            constructor
            · show e :: s :: rest2 = (e :: d :: ds) ++ (s :: rest2).dropWhile Char.isDigit
              have hr : s :: rest2 = (d :: ds) ++ (s :: rest2).dropWhile Char.isDigit := by
                rw [← htw, List.takeWhile_append_dropWhile]
              conv_lhs => rw [hr]
              rfl
            · intro x hx
              simp only at hx
              rw [show e :: d :: ds = [e] ++ (d :: ds) from rfl,
                List.getLast?_append_of_ne_nil _ (by simp)] at hx
              have hxm : x ∈ d :: ds := getLast?_mem' hx
              rw [← htw] at hxm
              exact List.mem_takeWhile_imp hxm
      · rw [if_neg he]
        simp

theorem parseUnsignedNum_shape {cs lit rest : List Char}
    (h : parseUnsignedNum cs = some (lit, rest)) :
    cs = lit ++ rest ∧ lit ≠ [] ∧ ∀ x, lit.getLast? = some x → x.isDigit = true := by
  rw [parseUnsignedNum] at h
  cases hi : parseIntDigits cs with
  | none => rw [hi] at h; cases h
  | some pr =>
    rw [hi] at h
    cases h
    obtain ⟨hieq, hine, hilast⟩ := parseIntDigits_shape hi
    obtain ⟨hfeq, hflast⟩ := parseFrac_shape pr.2
    obtain ⟨heeq, helast⟩ := parseExp_shape (parseFrac pr.2).2
    refine ⟨?_, by simp [hine], ?_⟩
    · conv_lhs => rw [hieq]; rw [hfeq]; rw [heeq]
      simp
    · intro x hx
      cases hee : (parseExp (parseFrac pr.2).2).1 with
      | cons y ys =>
        rw [hee, List.getLast?_append_of_ne_nil _ (by simp)] at hx
        rw [← hee] at hx
        exact helast x hx
      | nil =>
        rw [hee, List.append_nil] at hx
        cases hff : (parseFrac pr.2).1 with
        | cons y ys =>
          rw [hff, List.getLast?_append_of_ne_nil _ (by simp)] at hx
          rw [← hff] at hx
          exact hflast x hx
        | nil =>
          rw [hff, List.append_nil] at hx
          exact hilast x hx

theorem parseNumber_shape {cs rest : List Char} {v : Json}
    (h : parseNumber cs = some (v, rest)) :
    ∃ pre, cs = pre ++ rest ∧ pre ≠ [] ∧
      (∀ x, pre.getLast? = some x → (x.isDigit = true ∨ x = 'y')) ∧ ∃ lit, v = .num lit := by
  cases cs with
  | nil => rw [parseNumber] at h; cases h
  | cons c cs1 =>
    rw [parseNumber] at h
    by_cases hneg : c = '-'
    · rw [if_pos hneg] at h
      by_cases hinf : cs1.take 8 = ['I', 'n', 'f', 'i', 'n', 'i', 't', 'y']
      · rw [if_pos hinf] at h
        cases h
        refine ⟨c :: ['I', 'n', 'f', 'i', 'n', 'i', 't', 'y'], ?_, by simp, ?_, "-Infinity", rfl⟩
        · conv_lhs => rw [show c :: cs1 = c :: (cs1.take 8 ++ cs1.drop 8) from by
            rw [List.take_append_drop]]
          rw [hinf]
          rfl
        · intro x hx
          rw [show c :: ['I', 'n', 'f', 'i', 'n', 'i', 't', 'y'] =
            (c :: ['I', 'n', 'f', 'i', 'n', 'i', 't']) ++ ['y'] from rfl,
            List.getLast?_concat] at hx
          cases hx
          exact Or.inr rfl
      · rw [if_neg hinf] at h
        cases hu : parseUnsignedNum cs1 with
        | none => rw [hu] at h; cases h
        | some pr =>
          rw [hu] at h
          cases h
          obtain ⟨hueq, hune, hulast⟩ := parseUnsignedNum_shape hu
          refine ⟨c :: pr.1, ?_, by simp, ?_, _, rfl⟩
          · rw [hueq]; rfl
          · intro x hx
            rw [show c :: pr.1 = [c] ++ pr.1 from rfl,
              List.getLast?_append_of_ne_nil _ hune] at hx
            exact Or.inl (hulast x hx)
    · rw [if_neg hneg] at h
      cases hu : parseUnsignedNum (c :: cs1) with
      | none => rw [hu] at h; cases h
      | some pr =>
        rw [hu] at h
        cases h
        obtain ⟨hueq, hune, hulast⟩ := parseUnsignedNum_shape hu
        exact ⟨pr.1, hueq, hune, fun x hx => Or.inl (hulast x hx), _, rfl⟩

theorem consumedShape_of_last {v : Json} {pre : List Char} (y : Char)
    (hl : pre.getLast? = some y) (hy : ¬y = rbrace) : ConsumedShape v pre := by
  intro hlast
  rw [hl, Option.some.injEq] at hlast
  exact absurd hlast hy

theorem consumedShape_of_digit_y {v : Json} {pre : List Char}
    (hnum : ∀ x, pre.getLast? = some x → (x.isDigit = true ∨ x = 'y')) :
    ConsumedShape v pre := by
  intro hlast
  rcases hnum rbrace hlast with hd | hy
  · exact absurd hd (by decide)
  · exact absurd hy (by decide)

theorem skipWs_split (cs : List Char) : cs = cs.takeWhile isJsonWs ++ skipWs cs :=
  (List.takeWhile_append_dropWhile isJsonWs cs).symm

theorem parse_shape : ∀ f : Nat,
    (∀ cs v rest, parseValue f cs = some (v, rest) →
      ∃ pre, cs = pre ++ rest ∧ pre ≠ [] ∧ ConsumedShape v pre) ∧
    (∀ cs acc v rest, parseObjRest f cs acc = some (v, rest) →
      ∃ pre, cs = pre ++ rest ∧ pre ≠ [] ∧ pre.getLast? = some rbrace ∧
        ∃ members, v = .obj members ∧ members ≠ []) ∧
    (∀ cs acc v rest, parseArrRest f cs acc = some (v, rest) →
      ∃ pre, cs = pre ++ rest ∧ pre ≠ [] ∧ pre.getLast? = some ']' ∧
        ∃ items, v = .arr items) := by
  intro f
  induction f with
  | zero =>
    refine ⟨?_, ?_, ?_⟩
    · intro cs v rest h; rw [parseValue] at h; cases h
    · intro cs acc v rest h; rw [parseObjRest] at h; cases h
    · intro cs acc v rest h; rw [parseArrRest] at h; cases h
  | succ f ih =>
    obtain ⟨ihv, iho, iha⟩ := ih
    refine ⟨?_, ?_, ?_⟩
    · -- parseValue
      intro cs v rest h
      cases cs with
      | nil => rw [parseValue] at h; cases h
      | cons c rest0 =>
        rw [parseValue] at h
        by_cases hq : c = '"'
        · rw [if_pos hq] at h
          cases hsb : parseStringBody (rest0.length + 1) rest0 with
          | none => rw [hsb] at h; cases h
          | some pr =>
            rw [hsb] at h
            cases h
            obtain ⟨ps, hps, hpsne, hpslast⟩ :=
              parseStringBody_shape (rest0.length + 1) rest0 pr.1 pr.2 hsb
            refine ⟨c :: ps, ?_, by simp, ?_⟩
            · rw [hps]; rfl
            · refine consumedShape_of_last '"' ?_ (by decide)
              show ([c] ++ ps).getLast? = some '"'
              rw [List.getLast?_append_of_ne_nil _ hpsne]
              exact hpslast
        · rw [if_neg hq] at h
          by_cases hlb : c = lbrace
          · rw [if_pos hlb] at h
            cases hsw : skipWs rest0 with
            | nil => rw [hsw] at h; cases h
            | cons c1 r1 =>
              rw [hsw] at h
              dsimp only at h
              have hrest0 : rest0 = rest0.takeWhile isJsonWs ++ (c1 :: r1) := by
                conv_lhs => rw [skipWs_split rest0]
                rw [hsw]
              by_cases hrb : c1 = rbrace
              · rw [if_pos hrb] at h
                cases h
                refine ⟨lbrace :: (rest0.takeWhile isJsonWs ++ [rbrace]), ?_, by simp, ?_⟩
                · conv_lhs => rw [hrest0]
                  rw [hlb, hrb]
                  simp
                · intro _
                  refine ⟨[], rfl, fun _ => ⟨rest0.takeWhile isJsonWs, rfl, ?_⟩⟩
                  intro a ha
                  exact List.mem_takeWhile_imp ha
              · rw [if_neg hrb] at h
                obtain ⟨pre', heq', hne', hlast', members, hv, hmem⟩ :=
                  iho (c1 :: r1) [] v rest h
                refine ⟨c :: (rest0.takeWhile isJsonWs ++ pre'), ?_, by simp, ?_⟩
                · conv_lhs => rw [hrest0]; rw [heq']
                  simp
                · intro _
                  exact ⟨members, hv, fun h0 => absurd h0 hmem⟩
          · rw [if_neg hlb] at h
            by_cases hbk : c = '['
            · rw [if_pos hbk] at h
              cases hsw : skipWs rest0 with
              | nil => rw [hsw] at h; cases h
              | cons c1 r1 =>
                rw [hsw] at h
                dsimp only at h
                have hrest0 : rest0 = rest0.takeWhile isJsonWs ++ (c1 :: r1) := by
                  conv_lhs => rw [skipWs_split rest0]
                  rw [hsw]
                by_cases hrb : c1 = ']'
                · rw [if_pos hrb] at h
                  cases h
                  refine ⟨c :: (rest0.takeWhile isJsonWs ++ [c1]), ?_, by simp, ?_⟩
                  · conv_lhs => rw [hrest0]
                    simp
                  · refine consumedShape_of_last c1 ?_ (by rw [hrb]; decide)
                    show ([c] ++ (rest0.takeWhile isJsonWs ++ [c1])).getLast? = some c1
                    rw [List.getLast?_append_of_ne_nil _ (by simp), List.getLast?_concat]
                · rw [if_neg hrb] at h
                  obtain ⟨pre', heq', hne', hlast', items, hv⟩ :=
                    iha (c1 :: r1) [] v rest h
                  refine ⟨c :: (rest0.takeWhile isJsonWs ++ pre'), ?_, by simp, ?_⟩
                  · conv_lhs => rw [hrest0]; rw [heq']
                    simp
                  · refine consumedShape_of_last ']' ?_ (by decide)
                    show ([c] ++ (rest0.takeWhile isJsonWs ++ pre')).getLast? = some ']'
                    rw [List.getLast?_append_of_ne_nil _ (by simp [hne']),
                      List.getLast?_append_of_ne_nil _ hne']
                    exact hlast'
            · rw [if_neg hbk] at h
              by_cases ht : c = 't'
              · rw [if_pos ht] at h
                by_cases htt : rest0.take 3 = ['r', 'u', 'e']
                · rw [if_pos htt] at h
                  cases h
                  refine ⟨c :: ['r', 'u', 'e'], ?_, by simp, consumedShape_of_last 'e' rfl (by decide)⟩
                  · conv_lhs => rw [show c :: rest0 = c :: (rest0.take 3 ++ rest0.drop 3) from by
                      rw [List.take_append_drop]]
                    rw [htt]
                    rfl
                · rw [if_neg htt] at h; cases h
              · rw [if_neg ht] at h
                by_cases hf : c = 'f'
                · rw [if_pos hf] at h
                  by_cases htt : rest0.take 4 = ['a', 'l', 's', 'e']
                  · rw [if_pos htt] at h
                    cases h
                    refine ⟨c :: ['a', 'l', 's', 'e'], ?_, by simp, consumedShape_of_last 'e' rfl (by decide)⟩
                    · conv_lhs => rw [show c :: rest0 = c :: (rest0.take 4 ++ rest0.drop 4) from by
                        rw [List.take_append_drop]]
                      rw [htt]
                      rfl
                  · rw [if_neg htt] at h; cases h
                · rw [if_neg hf] at h
                  by_cases hn : c = 'n'
                  · rw [if_pos hn] at h
                    by_cases htt : rest0.take 3 = ['u', 'l', 'l']
                    · rw [if_pos htt] at h
                      cases h
                      refine ⟨c :: ['u', 'l', 'l'], ?_, by simp, consumedShape_of_last 'l' rfl (by decide)⟩
                      · conv_lhs => rw [show c :: rest0 = c :: (rest0.take 3 ++ rest0.drop 3) from by
                          rw [List.take_append_drop]]
                        rw [htt]
                        rfl
                    · rw [if_neg htt] at h; cases h
                  · rw [if_neg hn] at h
                    by_cases hN : c = 'N'
                    · rw [if_pos hN] at h
                      by_cases htt : rest0.take 2 = ['a', 'N']
                      · rw [if_pos htt] at h
                        cases h
                        refine ⟨c :: ['a', 'N'], ?_, by simp, consumedShape_of_last 'N' rfl (by decide)⟩
                        · conv_lhs => rw [show c :: rest0 = c :: (rest0.take 2 ++ rest0.drop 2) from by
                            rw [List.take_append_drop]]
                          rw [htt]
                          rfl
                      · rw [if_neg htt] at h; cases h
                    · rw [if_neg hN] at h
                      by_cases hI : c = 'I'
                      · rw [if_pos hI] at h
                        by_cases htt : rest0.take 7 = ['n', 'f', 'i', 'n', 'i', 't', 'y']
                        · rw [if_pos htt] at h
                          cases h
                          refine ⟨c :: ['n', 'f', 'i', 'n', 'i', 't', 'y'], ?_, by simp, consumedShape_of_last 'y' rfl (by decide)⟩
                          · conv_lhs => rw [show c :: rest0 =
                              c :: (rest0.take 7 ++ rest0.drop 7) from by
                              rw [List.take_append_drop]]
                            rw [htt]
                            rfl
                        · rw [if_neg htt] at h; cases h
                      · rw [if_neg hI] at h
                        obtain ⟨pre, hpre, hne, hnum, lit, hv⟩ := parseNumber_shape h
                        exact ⟨pre, hpre, hne, consumedShape_of_digit_y hnum⟩
    · -- parseObjRest
      intro cs acc v rest h
      cases cs with
      | nil => rw [parseObjRest] at h; cases h
      | cons c rest0 =>
        rw [parseObjRest] at h
        by_cases hq : c = '"'
        · rw [if_pos hq] at h
          cases hsb : parseStringBody (rest0.length + 1) rest0 with
          | none => rw [hsb] at h; cases h
          | some key_pr =>
            rw [hsb] at h
            dsimp only at h
            obtain ⟨ps, hps, hpsne, hpslast⟩ :=
              parseStringBody_shape (rest0.length + 1) rest0 key_pr.1 key_pr.2 hsb
            cases hsw1 : skipWs key_pr.2 with
            | nil => rw [hsw1] at h; cases h
            | cons c2 r2 =>
              rw [hsw1] at h
              dsimp only at h
              have hr1 : key_pr.2 = key_pr.2.takeWhile isJsonWs ++ (c2 :: r2) := by
                conv_lhs => rw [skipWs_split key_pr.2]
                rw [hsw1]
              by_cases hcolon : c2 = ':'
              · rw [if_pos hcolon] at h
                cases hpv : parseValue f (skipWs r2) with
                | none => rw [hpv] at h; cases h
                | some val_pr =>
                  rw [hpv] at h
                  dsimp only at h
                  obtain ⟨pv, hpveq, hpvne, _⟩ := ihv (skipWs r2) val_pr.1 val_pr.2 hpv
                  have hr2 : r2 = r2.takeWhile isJsonWs ++ (pv ++ val_pr.2) := by
                    conv_lhs => rw [skipWs_split r2]
                    rw [hpveq]
                  cases hsw3 : skipWs val_pr.2 with
                  | nil => rw [hsw3] at h; cases h
                  | cons c4 r4 =>
                    rw [hsw3] at h
                    dsimp only at h
                    have hr3 : val_pr.2 = val_pr.2.takeWhile isJsonWs ++ (c4 :: r4) := by
                      conv_lhs => rw [skipWs_split val_pr.2]
                      rw [hsw3]
                    by_cases hcomma : c4 = ','
                    · rw [if_pos hcomma] at h
                      obtain ⟨pre'', heq'', hne'', hlast'', members, hv, hmem⟩ :=
                        iho (skipWs r4) (acc ++ [(String.mk key_pr.1, val_pr.1)]) v rest h
                      have hr4 : r4 = r4.takeWhile isJsonWs ++ (pre'' ++ rest) := by
                        conv_lhs => rw [skipWs_split r4]
                        rw [heq'']
                      refine ⟨c :: (ps ++ (key_pr.2.takeWhile isJsonWs ++ (c2 ::
                        (r2.takeWhile isJsonWs ++ (pv ++ (val_pr.2.takeWhile isJsonWs ++ (c4 ::
                        (r4.takeWhile isJsonWs ++ pre'')))))))), ?_, by simp, ?_,
                        members, hv, hmem⟩
                      · conv_lhs => rw [hps]; rw [hr1]; rw [hr2]; rw [hr3]; rw [hr4]
                        simp
                      · simp [List.getLast?_append, List.getLast?_cons, hlast'']
                    · rw [if_neg hcomma] at h
                      by_cases hrb : c4 = rbrace
                      · rw [if_pos hrb] at h
                        cases h
                        refine ⟨c :: (ps ++ (key_pr.2.takeWhile isJsonWs ++ (c2 ::
                          (r2.takeWhile isJsonWs ++ (pv ++ (val_pr.2.takeWhile isJsonWs ++
                          [c4])))))), ?_, by simp, ?_, acc ++ [(String.mk key_pr.1, val_pr.1)],
                          rfl, by simp⟩
                        · conv_lhs => rw [hps]; rw [hr1]; rw [hr2]; rw [hr3]
                          simp
                        · simp [List.getLast?_append, List.getLast?_cons, hrb]
                      · rw [if_neg hrb] at h
                        cases h
              · rw [if_neg hcolon] at h
                cases h
        · rw [if_neg hq] at h
          cases h
    · -- parseArrRest
      intro cs acc v rest h
      rw [parseArrRest] at h
      cases hpv : parseValue f cs with
      | none => rw [hpv] at h; cases h
      | some val_pr =>
        rw [hpv] at h
        dsimp only at h
        obtain ⟨pv, hpveq, hpvne, _⟩ := ihv cs val_pr.1 val_pr.2 hpv
        cases hsw : skipWs val_pr.2 with
        | nil => rw [hsw] at h; cases h
        | cons c2 r2 =>
          rw [hsw] at h
          dsimp only at h
          have hr3 : val_pr.2 = val_pr.2.takeWhile isJsonWs ++ (c2 :: r2) := by
            conv_lhs => rw [skipWs_split val_pr.2]
            rw [hsw]
          by_cases hcomma : c2 = ','
          · rw [if_pos hcomma] at h
            obtain ⟨pre'', heq'', hne'', hlast'', items, hv⟩ :=
              iha (skipWs r2) (acc ++ [val_pr.1]) v rest h
            have hr2 : r2 = r2.takeWhile isJsonWs ++ (pre'' ++ rest) := by
              conv_lhs => rw [skipWs_split r2]
              rw [heq'']
            refine ⟨pv ++ (val_pr.2.takeWhile isJsonWs ++ (c2 ::
              (r2.takeWhile isJsonWs ++ pre''))), ?_, by simp [hpvne], ?_, items, hv⟩
            · conv_lhs => rw [hpveq]; rw [hr3]; rw [hr2]
              simp
            · simp [List.getLast?_append, List.getLast?_cons, hlast'']
          · rw [if_neg hcomma] at h
            by_cases hrb : c2 = ']'
            · rw [if_pos hrb] at h
              cases h
              refine ⟨pv ++ (val_pr.2.takeWhile isJsonWs ++ [c2]), ?_,
                by simp [hpvne], ?_, acc ++ [val_pr.1], rfl⟩
              · conv_lhs => rw [hpveq]; rw [hr3]
                simp
              · simp [List.getLast?_append, List.getLast?_cons, hrb]
            · rw [if_neg hrb] at h
              cases h

theorem json_loads_quote_brace_obj {s : String} {v : Json}
    (h : json_loads s = some v) (hend : ∃ u, s.data = u ++ ['"', rbrace]) :
    ∃ m ms, v = .obj (m :: ms) := by
  obtain ⟨u, hu⟩ := hend
  rw [json_loads] at h
  cases hpv : parseValue (4 * s.data.length + 8) (skipWs s.data) with
  | none => rw [hpv] at h; cases h
  | some pr =>
    rw [hpv] at h
    dsimp only at h
    by_cases hrest : skipWs pr.2 = []
    · rw [if_pos hrest] at h
      have hv : pr.1 = v := by cases h; rfl
      obtain ⟨pre, hpre, hprene, hshape⟩ :=
        (parse_shape (4 * s.data.length + 8)).1 (skipWs s.data) pr.1 pr.2 hpv
      have hsd : s.data = s.data.takeWhile isJsonWs ++ (pre ++ pr.2) := by
        conv_lhs => rw [skipWs_split s.data]
        rw [hpre]
      have hwsrest : ∀ a ∈ pr.2, isJsonWs a = true := List.dropWhile_eq_nil_iff.mp hrest
      have hlast_s : s.data.getLast? = some rbrace := by
        rw [hu]
        simp [List.getLast?_append, List.getLast?_cons]
      have hr2 : pr.2 = [] := by
        cases hr : pr.2 with
        | nil => rfl
        | cons a as =>
          exfalso
          rcases eq_nil_or_concat' (a :: as) with h0 | ⟨t2, x, hx⟩
          · cases h0
          · have hxl : pr.2.getLast? = some x := by rw [hr, hx, List.getLast?_concat]
            have : s.data.getLast? = some x := by
              rw [hsd, List.getLast?_append, List.getLast?_append, hxl]
              rfl
            rw [hlast_s] at this
            have hxr : x = rbrace := by
              rw [Option.some.injEq] at this
              exact this.symm
            have hxm : x ∈ pr.2 := getLast?_mem' hxl
            have := hwsrest x hxm
            rw [hxr] at this
            exact absurd this (by decide)
      rw [hr2, List.append_nil] at hsd
      rcases eq_nil_or_concat' pre with h0 | ⟨t2, x, hx⟩
      · exact absurd h0 hprene
      · have hxl : pre.getLast? = some x := by rw [hx, List.getLast?_concat]
        have hsl : s.data.getLast? = some x := by
          rw [hsd, List.getLast?_append, hxl]
          rfl
        rw [hlast_s, Option.some.injEq] at hsl
        obtain ⟨members, hvm, hempty⟩ := hshape (by rw [hxl, hsl])
        cases hm : members with
        | cons m ms => exact ⟨m, ms, by rw [← hv, hvm, hm]⟩
        | nil =>
          exfalso
          obtain ⟨w, hw, hwws⟩ := hempty hm
          obtain ⟨tw, htw⟩ : ∃ tw, s.data = tw ++ pre := ⟨_, hsd⟩
          have heq1 : (u ++ ['"']) ++ [rbrace] = (tw ++ lbrace :: w) ++ [rbrace] := by
            have l1 : (u ++ ['"']) ++ [rbrace] = s.data := by rw [hu]; simp
            rw [l1, htw, hw]
            simp
          obtain ⟨heq2, _⟩ := concat_inj' heq1
          rcases eq_nil_or_concat' w with hw0 | ⟨w2, cw, hcw⟩
          · rw [hw0] at heq2
            obtain ⟨_, hq⟩ := concat_inj' heq2
            exact absurd hq (by decide)
          · rw [hcw] at heq2
            have heq3 : u ++ ['"'] = (tw ++ lbrace :: w2) ++ [cw] := by
              rw [heq2]
              simp
            obtain ⟨_, hq⟩ := concat_inj' heq3
            have hcm : cw ∈ w := by rw [hcw]; simp
            have := hwws cw hcm
            rw [← hq] at this
            exact absurd this (by decide)
    · rw [if_neg hrest] at h
      cases h

theorem repairText_data (t : String) :
    (repairText t).data = t.data ++
      (List.replicate (countChar lbrace t - countChar rbrace t) ['"', rbrace]).flatten := by
  rw [repairText]
  by_cases hgt : countChar lbrace t > countChar rbrace t
  · rw [if_pos hgt]
    show (t ++ pyStrMul "\"\x7d" (countChar lbrace t - countChar rbrace t)).data = _
    rw [String.data_append]
    rfl
  · rw [if_neg hgt]
    have hz : countChar lbrace t - countChar rbrace t = 0 := by omega
    rw [hz]
    simp

theorem repairText_ends {t : String}
    (hk : 1 ≤ countChar lbrace t - countChar rbrace t) :
    ∃ u, (repairText t).data = u ++ ['"', rbrace] := by
  rw [repairText_data]
  cases hd : countChar lbrace t - countChar rbrace t with
  | zero => omega
  | succ k =>
    refine ⟨t.data ++ (List.replicate k ['"', rbrace]).flatten, ?_⟩
    rw [List.replicate_succ', List.flatten_append]
    simp

set_option maxHeartbeats 800000 in
/-- Claim C4: on the final attempt, when the strict parse of the cleaned text
`t` fails, closure repair appends exactly (count of opening braces minus
count of closing braces) copies of the two-character sequence quote-brace to
the text when opens exceed closes (appending zero copies, i.e. leaving it
unchanged, otherwise), re-parses the repaired text exactly once (the single
`json.loads` call inside `_try_partial_json`), and returns `ok` of the
payload if that parse succeeds and the malformed-response error if it fails.
The code's extra `if partial_result:` truthiness test cannot change the
outcome: a successful parse of the repaired text is a nonempty object (the
text ends in quote-brace), which is truthy, and in the no-append case the
re-parse of the unchanged text fails exactly as the strict parse did. -/
theorem c4_last_attempt_closure_repair (g : GeminiClient) (t : String)
    (h : json_loads t = none) :
    (repairText t).data = t.data ++
      (List.replicate (countChar lbrace t - countChar rbrace t) ['"', rbrace]).flatten ∧
    normalize_last_attempt g t =
      (match json_loads (repairText t) with
       | some v => .ok v
       | none => .err .malformedResponse failMsg (some (snippet500 t))) := by
  refine ⟨repairText_data t, ?_⟩
  rw [normalize_last_attempt, GeminiClient.try_repair_json]
  cases hrp : json_loads (repairText t) with
  | none => rfl
  | some v =>
    dsimp only
    have htr : pyTruthy v = true := by
      by_cases hgt : countChar lbrace t > countChar rbrace t
      · have hk : 1 ≤ countChar lbrace t - countChar rbrace t := by omega
        obtain ⟨m, ms, hv⟩ := json_loads_quote_brace_obj hrp (repairText_ends hk)
        rw [hv]
        simp [pyTruthy]
      · have hid : repairText t = t := by rw [repairText, if_neg hgt]
        rw [hid, h] at hrp
        cases hrp
    rw [htr, if_pos rfl]

/-- Witness for C4 at the single-opening-brace text, whose repair parses to
the empty-key object. -/
theorem c4_witness :
    json_loads "\x7b" = none ∧
      ((repairText "\x7b").data = ("\x7b" : String).data ++
        (List.replicate (countChar lbrace "\x7b" - countChar rbrace "\x7b")
          ['"', rbrace]).flatten ∧
       normalize_last_attempt client0 "\x7b" =
        (match json_loads (repairText "\x7b") with
         | some v => .ok v
         | none => .err .malformedResponse failMsg (some (snippet500 "\x7b")))) :=
  ⟨rfl, c4_last_attempt_closure_repair client0 "\x7b" rfl⟩

end StudyBuddy
